import Mathlib

/-!
# lsa5: polynomial evaluation and machine precision

Shallow embedding of `src/floating_point/02_polinomio.cpp` (`metodo_classico`,
`metodo_horner`) and of `src/floating_point/01_precisione_macchina.c`
(`calcola_epsilon_float`, `calcola_epsilon_double`).

* The two evaluators are written once, over any type carrying `0`, `1`, `+` and `*`; they are
  read over a semiring for the exact statements and over the binary32 model `FP binary32`
  for the single-precision statements.
* `vector<float>` is a `List`; `a[i]` with an `int` index is `elemento`, which is `none`
  outside `0 .. a.size() - 1`, so an evaluator returns an `Option`. The source reads with
  the unchecked `vector::operator[]`: `none` marks a read that leaves the vector, it is not
  an error the source reports. What the source does on such a read is the subject of
  `elemento_grezzo` and `metodo_horner_grezzo`, which take the memory around the buffer as
  a parameter.
* `int` counters are mathematical integers (the degree is far below `2^31`).
* `float` and `double` are IEEE 754 binary32 and binary64 with round to nearest, ties to
  even, every operation rounded to its own format.
-/

namespace Lsa5

set_option maxRecDepth 100000

/-! ## Polynomial evaluation (`02_polinomio.cpp`) -/

section Polinomio

variable {α : Type}

/-- The read `a[i]` of a `vector` at an `int` index: `none` when the index is outside the
vector. -/
def elemento (a : List α) (i : Int) : Option α :=
  if 0 ≤ i then a[i.toNat]? else none

/-- The inner loop `for (int j = 0; j < i; ++j) xp *= x0;` with `k` iterations left. -/
def potenza [Mul α] (x0 : α) : Nat → α → α
  | 0, xp => xp
  | k + 1, xp => potenza x0 k (xp * x0)

/-- The outer loop of `metodo_classico`, `for (int i = 0; i <= n; ++i)`, with `k` iterations
left, at index `i` and partial sum `somma`: `xp = 1.0f`, the inner loop, then
`somma += a[i] * xp`. -/
def classico_ciclo [One α] [Add α] [Mul α] (a : List α) (x0 : α) : Nat → Int → α → Option α
  | 0, _, somma => some somma
  | k + 1, i, somma =>
    match elemento a i with
    | none => none
    | some ai => classico_ciclo a x0 k (i + 1) (somma + ai * potenza x0 i.toNat 1)

/-- The function `metodo_classico`: `n = a.size() - 1`, `somma = 0.0f`, and the loop over
`i = 0 .. n`, which runs `n + 1` times (not at all when `n = -1`). -/
def metodo_classico [Zero α] [One α] [Add α] [Mul α] (a : List α) (x0 : α) : Option α :=
  let n : Int := (a.length : Int) - 1
  classico_ciclo a x0 (n + 1).toNat 0 0

/-- The loop of `metodo_horner`, `for (int i = n - 1; i >= 0; --i) r = r * x0 + a[i];`, with
`k` iterations left, at index `i`. -/
def horner_ciclo [Add α] [Mul α] (a : List α) (x0 : α) : Nat → Int → α → Option α
  | 0, _, r => some r
  | k + 1, i, r =>
    match elemento a i with
    | none => none
    | some ai => horner_ciclo a x0 k (i - 1) (r * x0 + ai)

/-- The function `metodo_horner`: `n = a.size() - 1`, `r = a[n]`, and the loop over
`i = n - 1 .. 0`, which runs `n` times. -/
def metodo_horner [Add α] [Mul α] (a : List α) (x0 : α) : Option α :=
  let n : Int := (a.length : Int) - 1
  match elemento a n with
  | none => none
  | some r => horner_ciclo a x0 n.toNat (n - 1) r

/-! ### The unchecked read of `vector::operator[]` -/

/-- The read `a[i]` as `vector::operator[]` performs it, without a bounds check: inside the
vector it is the element; outside the vector it is whatever the memory around the buffer
gives at that offset, `fuori i`, which is `some w` when the word `w` is read there and
`none` when the read faults and the process is stopped. -/
def elemento_grezzo (fuori : Int → Option α) (a : List α) (i : Int) : Option α :=
  match elemento a i with
  | some v => some v
  | none => fuori i

/-- The loop of `metodo_horner` over the unchecked read, with `k` iterations left, at
index `i`. -/
def horner_ciclo_grezzo [Add α] [Mul α] (fuori : Int → Option α) (a : List α) (x0 : α) :
    Nat → Int → α → Option α
  | 0, _, r => some r
  | k + 1, i, r =>
    match elemento_grezzo fuori a i with
    | none => none
    | some ai => horner_ciclo_grezzo fuori a x0 k (i - 1) (r * x0 + ai)

/-- The function `metodo_horner` over the unchecked read: `n = a.size() - 1`, `r = a[n]`
read without a check, and the loop over `i = n - 1 .. 0`, which runs `n` times (not at all
when `n = -1`). The result is `none` only when a read faults. -/
def metodo_horner_grezzo [Add α] [Mul α] (fuori : Int → Option α) (a : List α) (x0 : α) :
    Option α :=
  let n : Int := (a.length : Int) - 1
  match elemento_grezzo fuori a n with
  | none => none
  | some r => horner_ciclo_grezzo fuori a x0 n.toNat (n - 1) r

/-! ### The same code with a multiplication counter -/

/-- The inner loop of `metodo_classico` on a pair (value, multiplications so far). -/
def potenza_conta [Mul α] (x0 : α) : Nat → α × Nat → α × Nat
  | 0, s => s
  | k + 1, s => potenza_conta x0 k (s.1 * x0, s.2 + 1)

/-- The outer loop of `metodo_classico` with the counter: the inner loop counts its own
multiplications and `a[i] * xp` counts one more. -/
def classico_ciclo_conta [One α] [Add α] [Mul α] (a : List α) (x0 : α) :
    Nat → Int → α × Nat → Option (α × Nat)
  | 0, _, s => some s
  | k + 1, i, s =>
    match elemento a i with
    | none => none
    | some ai =>
      let xp := potenza_conta x0 i.toNat (1, s.2)
      classico_ciclo_conta a x0 k (i + 1) (s.1 + ai * xp.1, xp.2 + 1)

/-- The function `metodo_classico` returning its value and its number of multiplications. -/
def metodo_classico_conta [Zero α] [One α] [Add α] [Mul α] (a : List α) (x0 : α) :
    Option (α × Nat) :=
  let n : Int := (a.length : Int) - 1
  classico_ciclo_conta a x0 (n + 1).toNat 0 (0, 0)

/-- The loop of `metodo_horner` with the counter: one multiplication per iteration. -/
def horner_ciclo_conta [Add α] [Mul α] (a : List α) (x0 : α) :
    Nat → Int → α × Nat → Option (α × Nat)
  | 0, _, s => some s
  | k + 1, i, s =>
    match elemento a i with
    | none => none
    | some ai => horner_ciclo_conta a x0 k (i - 1) (s.1 * x0 + ai, s.2 + 1)

/-- The function `metodo_horner` returning its value and its number of multiplications. -/
def metodo_horner_conta [Add α] [Mul α] (a : List α) (x0 : α) : Option (α × Nat) :=
  let n : Int := (a.length : Int) - 1
  match elemento a n with
  | none => none
  | some r => horner_ciclo_conta a x0 n.toNat (n - 1) (r, 0)

/-- The polynomial value as the specification writes it: the sum of `a[i] * x^i` over the
indices of `a`. -/
def valore_esatto [Semiring α] (a : List α) (x : α) : α :=
  ∑ i ∈ Finset.range a.length, a.getD i 0 * x ^ i

end Polinomio

/-! ## Binary floating point (IEEE 754, round to nearest, ties to even) -/

section VirgolaMobile

/-- A binary floating-point format: `prec` significand bits (the hidden bit included) and
the largest exponent `emax` of a normalised value. -/
structure Formato where
  prec : Nat
  emax : Int
deriving DecidableEq, Repr

/-- Exponent of the last significand bit of the subnormal values. -/
def Formato.emin (F : Formato) : Int := 2 - F.emax - F.prec

/-- Exponent of the last significand bit of the largest finite values. -/
def Formato.etop (F : Formato) : Int := F.emax + 1 - F.prec

/-- The format of `float`: 24 significand bits, exponents up to 127. -/
def binary32 : Formato := ⟨24, 127⟩

/-- The format of `double`: 53 significand bits, exponents up to 1023. -/
def binary64 : Formato := ⟨53, 1023⟩

/-- The values of a format: a NaN, the two infinities, and the finite values
`fin neg m e`, which stands for `(-1)^neg * m * 2^e`. -/
inductive FP (F : Formato) where
  | nan : FP F
  | inf (neg : Bool) : FP F
  | fin (neg : Bool) (m : Nat) (e : Int) : FP F
deriving DecidableEq, Repr

/-- The encodings the format really has: a finite value has a significand below `2^prec`,
an exponent between `emin` and `etop`, and is normalised unless its exponent is `emin`. -/
def FP.Rappresentabile {F : Formato} : FP F → Prop
  | .nan => True
  | .inf _ => True
  | .fin _ m e => m < 2 ^ F.prec ∧ F.emin ≤ e ∧ e ≤ F.etop ∧ (e = F.emin ∨ 2 ^ (F.prec - 1) ≤ m)

/-- Binary digits of `n`, by halving, with `fuel` halvings allowed. -/
def bitlenAux : Nat → Nat → Nat
  | 0, _ => 0
  | fuel + 1, n => if n = 0 then 0 else bitlenAux fuel (n / 2) + 1

/-- Number of binary digits of `n` (`0` for `n = 0`). -/
def bitlen (n : Nat) : Nat := bitlenAux n n

/-- The integer `E` with `2^E ≤ n / d < 2^(E+1)`, for positive `n` and `d`. -/
def log2Ratio (n d : Nat) : Int :=
  let k : Int := (bitlen n : Int) - (bitlen d : Int)
  if d * 2 ^ k.toNat ≤ n * 2 ^ (-k).toNat then k else k - 1

/-- Exponent of the last significand bit that the format gives to the magnitude `n / d`. -/
def esponente (F : Formato) (n d : Nat) : Int :=
  max F.emin (log2Ratio n d + 1 - (F.prec : Int))

/-- Round the quotient `q` with remainder `r` of a division by `D` to the nearest integer,
a tie going to the even one. -/
def vicino_pari (q r D : Nat) : Nat :=
  if 2 * r < D then q else if 2 * r = D then (if q % 2 = 0 then q else q + 1) else q + 1

/-- Round the exact magnitude `n / d` with sign `neg` to the nearest value of the format,
ties to the even significand; a magnitude that rounds beyond the largest finite value gives
the infinity. -/
def arrotonda (F : Formato) (neg : Bool) (n d : Nat) : FP F :=
  if n = 0 then FP.fin neg 0 F.emin else
  let e : Int := esponente F n d
  let N : Nat := n * 2 ^ (-e).toNat
  let D : Nat := d * 2 ^ e.toNat
  let q : Nat := vicino_pari (N / D) (N % D) D
  let m : Nat := if q = 2 ^ F.prec then 2 ^ (F.prec - 1) else q
  let e1 : Int := if q = 2 ^ F.prec then e + 1 else e
  if F.etop < e1 then FP.inf neg else FP.fin neg m e1

/-- The signed integer `z` with `(-1)^neg * m * 2^e = z * 2^c`, for `c ≤ e`. -/
def scala (neg : Bool) (m : Nat) (e c : Int) : Int :=
  let z : Int := ((m * 2 ^ (e - c).toNat : Nat) : Int)
  if neg then -z else z

/-- Addition: the exact sum, rounded. An exact zero sum is `+0` unless both operands are
negative. -/
def fadd {F : Formato} : FP F → FP F → FP F
  | .nan, _ => .nan
  | _, .nan => .nan
  | .inf s, .inf t => if s = t then .inf s else .nan
  | .inf s, .fin _ _ _ => .inf s
  | .fin _ _ _, .inf t => .inf t
  | .fin s m e, .fin t k g =>
    let c : Int := min e g
    let z : Int := scala s m e c + scala t k g c
    if z = 0 then FP.fin (s && t) 0 F.emin
    else arrotonda F (decide (z < 0)) (z.natAbs * 2 ^ c.toNat) (2 ^ (-c).toNat)

/-- Multiplication: the exact product, rounded. -/
def fmul {F : Formato} : FP F → FP F → FP F
  | .nan, _ => .nan
  | _, .nan => .nan
  | .inf s, .inf t => .inf (xor s t)
  | .inf s, .fin t k _ => if k = 0 then .nan else .inf (xor s t)
  | .fin s m _, .inf t => if m = 0 then .nan else .inf (xor s t)
  | .fin s m e, .fin t k g =>
    arrotonda F (xor s t) (m * k * 2 ^ (e + g).toNat) (2 ^ (-(e + g)).toNat)

/-- Division: the exact quotient, rounded. -/
def fdiv {F : Formato} : FP F → FP F → FP F
  | .nan, _ => .nan
  | _, .nan => .nan
  | .inf _, .inf _ => .nan
  | .inf s, .fin t _ _ => .inf (xor s t)
  | .fin s _ _, .inf t => .fin (xor s t) 0 F.emin
  | .fin s m e, .fin t k g =>
    if k = 0 then (if m = 0 then .nan else .inf (xor s t))
    else arrotonda F (xor s t) (m * 2 ^ (e - g).toNat) (k * 2 ^ (g - e).toNat)

/-- The comparison `a < b`; false when an operand is a NaN. -/
def flt {F : Formato} : FP F → FP F → Bool
  | .nan, _ => false
  | _, .nan => false
  | .inf s, .inf t => s && !t
  | .inf s, .fin _ _ _ => s
  | .fin _ _ _, .inf t => !t
  | .fin s m e, .fin t k g => decide (scala s m e (min e g) < scala t k g (min e g))

/-- The comparison `a == b`; false when an operand is a NaN, true on `+0` and `-0`. -/
def feq {F : Formato} (a b : FP F) : Bool :=
  match a, b with
  | .nan, _ => false
  | _, .nan => false
  | _, _ => !flt a b && !flt b a

/-- The constant written as the decimal or integer literal `n / d`, and `-n / d` when
`neg`, correctly rounded. -/
def costante (F : Formato) (neg : Bool) (n d : Nat) : FP F := arrotonda F neg n d

instance instZeroFP (F : Formato) : Zero (FP F) := ⟨FP.fin false 0 F.emin⟩

instance instOneFP (F : Formato) : One (FP F) := ⟨costante F false 1 1⟩

instance instAddFP (F : Formato) : Add (FP F) := ⟨fadd⟩

instance instMulFP (F : Formato) : Mul (FP F) := ⟨fmul⟩

/-- The rational number a finite value stands for. -/
def toRat {F : Formato} : FP F → Option ℚ
  | .fin s m e => some ((if s then -1 else 1) * (m : ℚ) * (2 : ℚ) ^ e)
  | _ => none

end VirgolaMobile

/-! ## Machine precision (`01_precisione_macchina.c`) -/

section PrecisioneMacchina

/-- The loop `while (valore > 1.0) { epsilon /= 2.0; valore = 1.0 + epsilon; cifre++; }`
on the state `(epsilon, valore, cifre)`; `none` when `fuel` iterations were not enough to
leave the loop. -/
def ciclo_epsilon {F : Formato} : Nat → FP F → FP F → Int → Option (FP F × Int)
  | 0, _, _, _ => none
  | fuel + 1, epsilon, valore, cifre =>
    if flt 1 valore then
      let epsilon1 := fdiv epsilon (costante F false 2 1)
      ciclo_epsilon fuel epsilon1 (fadd 1 epsilon1) (cifre + 1)
    else some (epsilon, cifre)

/-- The body shared by `calcola_epsilon_float` and `calcola_epsilon_double`:
`cifre = 0`, `epsilon = 0.5`, `valore = 1.0 + epsilon`, the loop, then `epsilon *= 2.0`.
Returns the epsilon returned by the function and the `cifre` it prints. -/
def calcola_epsilon (F : Formato) (fuel : Nat) : Option (FP F × Int) :=
  let epsilon : FP F := costante F false 1 2
  let valore : FP F := fadd 1 epsilon
  match ciclo_epsilon fuel epsilon valore 0 with
  | none => none
  | some (eps, cifre) => some (fmul eps (costante F false 2 1), cifre)

/-- The function `calcola_epsilon_float`. -/
def calcola_epsilon_float (fuel : Nat) : Option (FP binary32 × Int) :=
  calcola_epsilon binary32 fuel

/-- The function `calcola_epsilon_double`. -/
def calcola_epsilon_double (fuel : Nat) : Option (FP binary64 × Int) :=
  calcola_epsilon binary64 fuel

end PrecisioneMacchina

/-! ## The test case of `main` in `02_polinomio.cpp` -/

section CasoDiTest

/-- The vector `p1 = {-1.0f, 3.0f, -3.0f, 1.0f}`. -/
def p1 : List (FP binary32) :=
  [costante binary32 true 1 1, costante binary32 false 3 1, costante binary32 true 3 1,
   costante binary32 false 1 1]

/-- The point `x0 = 1.001f`. -/
def x0_main : FP binary32 := costante binary32 false 1001 1000

end CasoDiTest

/-! ## Lemmas on the evaluators -/

section LemmiPolinomio

variable {α : Type}

theorem elemento_natCast (a : List α) (i : Nat) : elemento a (i : Int) = a[i]? := by
  simp [elemento]

theorem elemento_lt (a : List α) (i : Nat) (h : i < a.length) (d : α) :
    elemento a (i : Int) = some (a.getD i d) := by
  rw [elemento_natCast, List.getD_eq_getElem?_getD, List.getElem?_eq_getElem h]
  rfl

theorem potenza_eq_pow [Monoid α] (x : α) (k : Nat) (xp : α) :
    potenza x k xp = xp * x ^ k := by
  induction k generalizing xp with
  | zero => simp [potenza]
  | succ k ih => rw [potenza, ih, pow_succ', mul_assoc]

theorem classico_ciclo_eq [Semiring α] (a : List α) (x : α) (k i : Nat) (somma : α)
    (h : i + k ≤ a.length) :
    classico_ciclo a x k (i : Int) somma
      = some (somma + ∑ j ∈ Finset.range k, a.getD (i + j) 0 * potenza x (i + j) 1) := by
  induction k generalizing i somma with
  | zero => simp [classico_ciclo]
  | succ k ih =>
    have hi : i < a.length := by omega
    have hstep := ih (i + 1) (somma + a.getD i 0 * potenza x i 1) (by omega)
    rw [classico_ciclo, elemento_lt a i hi 0]
    simp only [Int.toNat_ofNat]
    have hcast : ((i : Int) + 1) = ((i + 1 : Nat) : Int) := by push_cast; rfl
    rw [hcast, hstep, Finset.sum_range_succ' _ k]
    simp only [Nat.add_zero]
    congr 1
    rw [add_assoc, add_comm (a.getD i 0 * potenza x i 1)]
    congr 2
    apply Finset.sum_congr rfl
    intro j _
    have : i + 1 + j = i + (j + 1) := by omega
    rw [this]

theorem metodo_classico_eq [Semiring α] (a : List α) (x : α) :
    metodo_classico a x
      = some (∑ i ∈ Finset.range a.length, a.getD i 0 * potenza x i 1) := by
  have h := classico_ciclo_eq a x a.length 0 0 (by omega)
  simp only [Nat.cast_zero, zero_add] at h
  unfold metodo_classico
  simp only [sub_add_cancel, Int.toNat_ofNat]
  exact h

theorem horner_ciclo_eq [Semiring α] (a : List α) (x : α) (k : Nat) (r : α)
    (h : k ≤ a.length) :
    horner_ciclo a x k ((k : Int) - 1) r
      = some (r * x ^ k + ∑ j ∈ Finset.range k, a.getD j 0 * x ^ j) := by
  induction k generalizing r with
  | zero => simp [horner_ciclo]
  | succ k ih =>
    have hk : k < a.length := by omega
    have hcast : ((k + 1 : Nat) : Int) - 1 = (k : Int) := by push_cast; ring
    rw [hcast, horner_ciclo, elemento_lt a k hk 0]
    simp only
    rw [ih (r * x + a.getD k 0) (by omega), Finset.sum_range_succ, pow_succ']
    congr 1
    rw [add_mul, mul_assoc, add_assoc, add_comm (a.getD k 0 * x ^ k)]

theorem metodo_horner_eq [Semiring α] (a : List α) (x : α) (h : a ≠ []) :
    metodo_horner a x = some (valore_esatto a x) := by
  obtain ⟨n, hn⟩ : ∃ n, a.length = n + 1 := by
    cases a with
    | nil => exact absurd rfl h
    | cons b t => exact ⟨t.length, rfl⟩
  unfold metodo_horner valore_esatto
  have hcast : ((a.length : Int) - 1) = (n : Int) := by rw [hn]; push_cast; ring
  simp only [hcast, Int.toNat_ofNat]
  rw [elemento_lt a n (by omega) 0]
  simp only
  rw [horner_ciclo_eq a x n _ (by omega), hn, Finset.sum_range_succ, add_comm]

theorem elemento_grezzo_of_some (fuori : Int → Option α) (a : List α) (i : Int) (v : α)
    (h : elemento a i = some v) : elemento_grezzo fuori a i = some v := by
  unfold elemento_grezzo
  rw [h]

theorem horner_ciclo_grezzo_of_some [Add α] [Mul α] (fuori : Int → Option α) (a : List α)
    (x : α) (k : Nat) (i : Int) (r v : α) (h : horner_ciclo a x k i r = some v) :
    horner_ciclo_grezzo fuori a x k i r = some v := by
  induction k generalizing i r with
  | zero =>
    rw [horner_ciclo] at h
    rw [horner_ciclo_grezzo]
    exact h
  | succ k ih =>
    rw [horner_ciclo] at h
    rw [horner_ciclo_grezzo]
    cases he : elemento a i with
    | none => simp [he] at h
    | some ai =>
      rw [he] at h
      rw [elemento_grezzo_of_some fuori a i ai he]
      exact ih _ _ h

/-- Inside the vector the unchecked reads are the checked ones: whenever `metodo_horner`
returns a value, `metodo_horner_grezzo` returns the same value, whatever the memory around
the buffer holds. -/
theorem metodo_horner_grezzo_of_some [Add α] [Mul α] (fuori : Int → Option α) (a : List α)
    (x v : α) (h : metodo_horner a x = some v) : metodo_horner_grezzo fuori a x = some v := by
  unfold metodo_horner at h
  unfold metodo_horner_grezzo
  simp only at h ⊢
  cases he : elemento a ((a.length : Int) - 1) with
  | none => simp [he] at h
  | some r =>
    rw [he] at h
    rw [elemento_grezzo_of_some fuori a _ r he]
    exact horner_ciclo_grezzo_of_some fuori a x _ _ r v h

theorem potenza_conta_eq [Mul α] (x : α) (k : Nat) (s : α × Nat) :
    potenza_conta x k s = (potenza x k s.1, s.2 + k) := by
  induction k generalizing s with
  | zero => simp [potenza_conta, potenza]
  | succ k ih =>
    rw [potenza_conta, ih, potenza]
    simp only [Prod.mk.injEq, true_and]
    omega

theorem classico_ciclo_conta_eq [One α] [Add α] [Mul α] (a : List α) (x : α) (k i : Nat)
    (s : α × Nat) (h : i + k ≤ a.length) :
    ∃ v, classico_ciclo a x k (i : Int) s.1 = some v ∧
      classico_ciclo_conta a x k (i : Int) s
        = some (v, s.2 + ∑ j ∈ Finset.range k, (i + j + 1)) := by
  induction k generalizing i s with
  | zero => exact ⟨s.1, by simp [classico_ciclo], by simp [classico_ciclo_conta]⟩
  | succ k ih =>
    have hi : i < a.length := by omega
    obtain ⟨b, hb⟩ : ∃ b, elemento a (i : Int) = some b := by
      rw [elemento_natCast, List.getElem?_eq_getElem hi]
      exact ⟨_, rfl⟩
    have hcast : ((i : Int) + 1) = ((i + 1 : Nat) : Int) := by push_cast; rfl
    obtain ⟨v, hv, hc⟩ := ih (i + 1) (s.1 + b * potenza x i 1, s.2 + i + 1) (by omega)
    refine ⟨v, ?_, ?_⟩
    · rw [classico_ciclo, hb]
      simp only [Int.toNat_ofNat]
      rw [hcast]
      exact hv
    · rw [classico_ciclo_conta, hb]
      simp only [Int.toNat_ofNat, potenza_conta_eq]
      rw [hcast, hc, Finset.sum_range_succ' _ k]
      simp only [Prod.mk.injEq, true_and, Nat.add_zero]
      have hsum : ∑ j ∈ Finset.range k, (i + 1 + j + 1)
          = ∑ j ∈ Finset.range k, (i + (j + 1) + 1) := by
        apply Finset.sum_congr rfl
        intro j _
        omega
      rw [hsum]
      congr 2
      omega

theorem horner_ciclo_conta_eq [Add α] [Mul α] (a : List α) (x : α) (k : Nat) (s : α × Nat)
    (h : k ≤ a.length) :
    ∃ v, horner_ciclo a x k ((k : Int) - 1) s.1 = some v ∧
      horner_ciclo_conta a x k ((k : Int) - 1) s = some (v, s.2 + k) := by
  induction k generalizing s with
  | zero => exact ⟨s.1, by simp [horner_ciclo], by simp [horner_ciclo_conta]⟩
  | succ k ih =>
    have hk : k < a.length := by omega
    obtain ⟨b, hb⟩ : ∃ b, elemento a (k : Int) = some b := by
      rw [elemento_natCast, List.getElem?_eq_getElem hk]
      exact ⟨_, rfl⟩
    have hcast : ((k + 1 : Nat) : Int) - 1 = (k : Int) := by push_cast; ring
    obtain ⟨v, hv, hc⟩ := ih (s.1 * x + b, s.2 + 1) (by omega)
    refine ⟨v, ?_, ?_⟩
    · rw [hcast, horner_ciclo, hb]
      exact hv
    · rw [hcast, horner_ciclo_conta, hb]
      simp only
      rw [hc]
      simp only [Option.some.injEq, Prod.mk.injEq, true_and]
      omega

theorem somma_succ_range (n : Nat) :
    ∑ j ∈ Finset.range (n + 1), (0 + j + 1) = n * (n + 1) / 2 + (n + 1) := by
  have h1 : ∑ j ∈ Finset.range (n + 1), (0 + j + 1)
      = ∑ j ∈ Finset.range (n + 1), j + (n + 1) := by
    rw [Finset.sum_congr rfl (fun j _ => by rw [Nat.zero_add]), Finset.sum_add_distrib]
    simp
  rw [h1, Finset.sum_range_id, Nat.add_sub_cancel, Nat.mul_comm]

end LemmiPolinomio

/-! ## Lemmas on rounding -/

section LemmiArrotonda

theorem bitlenAux_zero (fuel : Nat) : bitlenAux fuel 0 = 0 := by
  cases fuel <;> simp [bitlenAux]

theorem bitlenAux_spec (fuel n : Nat) (h : n ≤ fuel) (hn : n ≠ 0) :
    2 ^ (bitlenAux fuel n - 1) ≤ n ∧ n < 2 ^ bitlenAux fuel n := by
  induction fuel generalizing n with
  | zero => omega
  | succ fuel ih =>
    rw [bitlenAux, if_neg hn]
    by_cases h2 : n / 2 = 0
    · have h1 : n = 1 := by omega
      subst h1
      simp [bitlenAux_zero]
    · obtain ⟨h3, h4⟩ := ih (n / 2) (by omega) h2
      obtain ⟨t, ht⟩ : ∃ t, bitlenAux fuel (n / 2) = t + 1 := by
        cases hb : bitlenAux fuel (n / 2) with
        | zero =>
          rw [hb] at h4
          simp at h4
          omega
        | succ t => exact ⟨t, rfl⟩
      rw [ht] at h3 h4 ⊢
      simp only [Nat.add_sub_cancel] at h3 ⊢
      rw [pow_succ] at h4 ⊢
      constructor
      · omega
      · rw [pow_succ]
        omega

theorem bitlen_spec (n : Nat) (hn : n ≠ 0) :
    2 ^ (bitlen n - 1) ≤ n ∧ n < 2 ^ bitlen n ∧ 1 ≤ bitlen n := by
  obtain ⟨h1, h2⟩ := bitlenAux_spec n n (le_refl n) hn
  refine ⟨h1, h2, ?_⟩
  by_contra hc
  have h0 : bitlen n = 0 := by omega
  unfold bitlen at h0
  rw [h0] at h2
  simp at h2
  omega

theorem due_zpow_toNat (k : ℤ) : (2 : ℚ) ^ k * 2 ^ (-k).toNat = 2 ^ k.toNat := by
  rcases le_total 0 k with h | h
  · obtain ⟨t, rfl⟩ := Int.eq_ofNat_of_zero_le h
    have h0 : (-(t : ℤ)).toNat = 0 := by omega
    simp [h0]
  · obtain ⟨t, ht⟩ := Int.eq_ofNat_of_zero_le (neg_nonneg.mpr h)
    have hk : k = -(t : ℤ) := by omega
    subst hk
    have h0 : (-(t : ℤ)).toNat = 0 := by omega
    simp [h0]

theorem log2Ratio_test (n d : Nat) (k : ℤ) :
    d * 2 ^ k.toNat ≤ n * 2 ^ (-k).toNat ↔ (2 : ℚ) ^ k * d ≤ n := by
  have hpos : (0 : ℚ) < 2 ^ (-k).toNat := by positivity
  have hcast : (d * 2 ^ k.toNat ≤ n * 2 ^ (-k).toNat)
      ↔ ((d : ℚ) * 2 ^ k.toNat ≤ (n : ℚ) * 2 ^ (-k).toNat) := by
    rw [← Nat.cast_le (α := ℚ)]
    push_cast
    rfl
  rw [hcast, ← due_zpow_toNat k]
  constructor
  · intro h
    have h2 : (2 : ℚ) ^ k * d * 2 ^ (-k).toNat ≤ n * 2 ^ (-k).toNat := by
      calc (2 : ℚ) ^ k * d * 2 ^ (-k).toNat = d * ((2 : ℚ) ^ k * 2 ^ (-k).toNat) := by ring
        _ ≤ n * 2 ^ (-k).toNat := h
    exact le_of_mul_le_mul_right h2 hpos
  · intro h
    calc (d : ℚ) * ((2 : ℚ) ^ k * 2 ^ (-k).toNat) = (2 : ℚ) ^ k * d * 2 ^ (-k).toNat := by ring
      _ ≤ n * 2 ^ (-k).toNat := mul_le_mul_of_nonneg_right h hpos.le

theorem log2Ratio_spec (n d : Nat) (hn : n ≠ 0) (hd : d ≠ 0) :
    (2 : ℚ) ^ log2Ratio n d * d ≤ n ∧ (n : ℚ) < 2 ^ (log2Ratio n d + 1) * d := by
  obtain ⟨hn1, hn2, hn3⟩ := bitlen_spec n hn
  obtain ⟨hd1, hd2, hd3⟩ := bitlen_spec d hd
  have qn1 : (2 : ℚ) ^ ((bitlen n : ℤ) - 1) ≤ n := by
    have : (2 : ℚ) ^ ((bitlen n : ℤ) - 1) = ((2 ^ (bitlen n - 1) : ℕ) : ℚ) := by
      rw [show ((bitlen n : ℤ) - 1) = ((bitlen n - 1 : ℕ) : ℤ) by omega, zpow_natCast]
      push_cast
      rfl
    rw [this]
    exact_mod_cast hn1
  have qn2 : (n : ℚ) < 2 ^ (bitlen n : ℤ) := by
    rw [zpow_natCast]
    exact_mod_cast hn2
  have qd1 : (2 : ℚ) ^ ((bitlen d : ℤ) - 1) ≤ d := by
    have : (2 : ℚ) ^ ((bitlen d : ℤ) - 1) = ((2 ^ (bitlen d - 1) : ℕ) : ℚ) := by
      rw [show ((bitlen d : ℤ) - 1) = ((bitlen d - 1 : ℕ) : ℤ) by omega, zpow_natCast]
      push_cast
      rfl
    rw [this]
    exact_mod_cast hd1
  have qd2 : (d : ℚ) < 2 ^ (bitlen d : ℤ) := by
    rw [zpow_natCast]
    exact_mod_cast hd2
  have h2 : (2 : ℚ) ≠ 0 := by norm_num
  have lower : (2 : ℚ) ^ ((bitlen n : ℤ) - (bitlen d : ℤ) - 1) * d ≤ n := by
    have hp : (0 : ℚ) < 2 ^ ((bitlen n : ℤ) - (bitlen d : ℤ) - 1) := by positivity
    calc (2 : ℚ) ^ ((bitlen n : ℤ) - (bitlen d : ℤ) - 1) * d
        ≤ 2 ^ ((bitlen n : ℤ) - (bitlen d : ℤ) - 1) * 2 ^ (bitlen d : ℤ) :=
          mul_le_mul_of_nonneg_left qd2.le hp.le
      _ = 2 ^ ((bitlen n : ℤ) - 1) := by
          rw [← zpow_add₀ h2]
          congr 1
          ring
      _ ≤ n := qn1
  have upper : (n : ℚ) < 2 ^ ((bitlen n : ℤ) - (bitlen d : ℤ) + 1) * d := by
    have hp : (0 : ℚ) < 2 ^ ((bitlen n : ℤ) - (bitlen d : ℤ) + 1) := by positivity
    calc (n : ℚ) < 2 ^ (bitlen n : ℤ) := qn2
      _ = 2 ^ ((bitlen n : ℤ) - (bitlen d : ℤ) + 1) * 2 ^ ((bitlen d : ℤ) - 1) := by
          rw [← zpow_add₀ h2]
          congr 1
          ring
      _ ≤ 2 ^ ((bitlen n : ℤ) - (bitlen d : ℤ) + 1) * d :=
          mul_le_mul_of_nonneg_left qd1 hp.le
  unfold log2Ratio
  simp only
  by_cases ht : d * 2 ^ ((bitlen n : ℤ) - (bitlen d : ℤ)).toNat
      ≤ n * 2 ^ (-((bitlen n : ℤ) - (bitlen d : ℤ))).toNat
  · rw [if_pos ht]
    exact ⟨(log2Ratio_test n d _).mp ht, upper⟩
  · rw [if_neg ht]
    refine ⟨lower, ?_⟩
    have := mt (log2Ratio_test n d _).mpr ht
    rw [sub_add_cancel]
    exact not_le.mp this

/-- The exponent chosen for `n / d` is `e` as soon as `n / d` is below `2^(prec + e)` and
either `e` is the least exponent or `n / d` is at least `2^(prec - 1 + e)`. -/
theorem esponente_eq (F : Formato) (n d : Nat) (e : ℤ) (hn : n ≠ 0) (hd : d ≠ 0)
    (hmin : F.emin ≤ e) (hup : (n : ℚ) < 2 ^ ((F.prec : ℤ) + e) * d)
    (hlo : e = F.emin ∨ (2 : ℚ) ^ ((F.prec : ℤ) - 1 + e) * d ≤ n) :
    esponente F n d = e := by
  obtain ⟨h1, h2⟩ := log2Ratio_spec n d hn hd
  have hdpos : (0 : ℚ) < d := by exact_mod_cast Nat.pos_of_ne_zero hd
  have two : (1 : ℚ) < 2 := by norm_num
  have hle : log2Ratio n d + 1 - (F.prec : ℤ) ≤ e := by
    have h3 : (2 : ℚ) ^ log2Ratio n d * d < 2 ^ ((F.prec : ℤ) + e) * d := lt_of_le_of_lt h1 hup
    have h4 : (2 : ℚ) ^ log2Ratio n d < 2 ^ ((F.prec : ℤ) + e) := lt_of_mul_lt_mul_right h3 hdpos.le
    have h5 := (zpow_lt_zpow_iff_right₀ two).mp h4
    omega
  unfold esponente
  rcases hlo with hlo | hlo
  · rw [hlo] at hle ⊢
    exact max_eq_left hle
  · have h3 : (2 : ℚ) ^ ((F.prec : ℤ) - 1 + e) * d < 2 ^ (log2Ratio n d + 1) * d :=
      lt_of_le_of_lt hlo h2
    have h4 := lt_of_mul_lt_mul_right h3 hdpos.le
    have h5 := (zpow_lt_zpow_iff_right₀ two).mp h4
    have h6 : log2Ratio n d + 1 - (F.prec : ℤ) = e := by omega
    rw [h6]
    exact max_eq_right hmin

theorem arrotonda_di_esponente (F : Formato) (s : Bool) (n d : Nat) (e : ℤ) (q : Nat)
    (hn : n ≠ 0) (he : esponente F n d = e)
    (hq : vicino_pari (n * 2 ^ (-e).toNat / (d * 2 ^ e.toNat))
      (n * 2 ^ (-e).toNat % (d * 2 ^ e.toNat)) (d * 2 ^ e.toNat) = q)
    (hlt : q < 2 ^ F.prec) (htop : e ≤ F.etop) :
    arrotonda F s n d = FP.fin s q e := by
  unfold arrotonda
  rw [if_neg hn]
  simp only [he, hq]
  rw [if_neg (ne_of_lt hlt), if_neg (ne_of_lt hlt), if_neg (not_lt.mpr htop)]

/-- Rounding is the identity on the values of the format: a magnitude `n / d` equal to
`m * 2^e`, with `m` and `e` a significand and an exponent of the format, rounds to
`fin s m e`. -/
theorem arrotonda_esatto (F : Formato) (s : Bool) (n d m : Nat) (e : ℤ) (hd : d ≠ 0)
    (hm : m ≠ 0) (hrep : m < 2 ^ F.prec) (hemin : F.emin ≤ e) (hetop : e ≤ F.etop)
    (hnorm : e = F.emin ∨ 2 ^ (F.prec - 1) ≤ m)
    (hval : n * 2 ^ (-e).toNat = m * (d * 2 ^ e.toNat)) :
    arrotonda F s n d = FP.fin s m e := by
  have hDpos : 0 < d * 2 ^ e.toNat := Nat.mul_pos (Nat.pos_of_ne_zero hd) (by positivity)
  have hn : n ≠ 0 := by
    intro h0
    rw [h0, Nat.zero_mul] at hval
    have := Nat.mul_pos (Nat.pos_of_ne_zero hm) hDpos
    omega
  have hprec : 1 ≤ F.prec := by
    by_contra hc
    have h0 : F.prec = 0 := by omega
    rw [h0] at hrep
    simp at hrep
    exact hm hrep
  have h2 : (2 : ℚ) ≠ 0 := by norm_num
  have hdq : (0 : ℚ) < d := by exact_mod_cast Nat.pos_of_ne_zero hd
  have hpe : (0 : ℚ) < 2 ^ e := by positivity
  have hq : (n : ℚ) = m * 2 ^ e * d := by
    have hc : (n : ℚ) * 2 ^ (-e).toNat = m * (d * 2 ^ e.toNat) := by exact_mod_cast hval
    have hpos : (0 : ℚ) < 2 ^ (-e).toNat := by positivity
    rw [← due_zpow_toNat e] at hc
    have : (n : ℚ) * 2 ^ (-e).toNat = m * 2 ^ e * d * 2 ^ (-e).toNat := by
      rw [hc]
      ring
    exact mul_right_cancel₀ hpos.ne' this
  have hup : (n : ℚ) < 2 ^ ((F.prec : ℤ) + e) * d := by
    rw [hq, zpow_add₀ h2, zpow_natCast]
    have : (m : ℚ) < 2 ^ F.prec := by exact_mod_cast hrep
    exact mul_lt_mul_of_pos_right (mul_lt_mul_of_pos_right this hpe) hdq
  have hlo : e = F.emin ∨ (2 : ℚ) ^ ((F.prec : ℤ) - 1 + e) * d ≤ n := by
    rcases hnorm with h | h
    · exact Or.inl h
    · right
      rw [hq, zpow_add₀ h2, show ((F.prec : ℤ) - 1) = ((F.prec - 1 : ℕ) : ℤ) by omega,
        zpow_natCast]
      have : ((2 : ℚ) ^ (F.prec - 1)) ≤ m := by exact_mod_cast h
      exact mul_le_mul_of_nonneg_right (mul_le_mul_of_nonneg_right this hpe.le) hdq.le
  apply arrotonda_di_esponente F s n d e m hn (esponente_eq F n d e hn hd hemin hup hlo) _
    hrep hetop
  rw [hval, Nat.mul_div_cancel _ hDpos, Nat.mul_mod_left]
  unfold vicino_pari
  rw [if_pos (by omega)]

theorem add_def {F : Formato} (a b : FP F) : a + b = fadd a b := rfl

theorem mul_def {F : Formato} (a b : FP F) : a * b = fmul a b := rfl

theorem zero_def (F : Formato) : (0 : FP F) = FP.fin false 0 F.emin := rfl

theorem pow_due_eq (m a b c d : Nat) (h : a + b = c + d) :
    m * 2 ^ a * 2 ^ b = m * (2 ^ c * 2 ^ d) := by
  rw [Nat.mul_assoc, ← pow_add, ← pow_add, h]

/-- Multiplying a value of the format by `1.0` returns the value unchanged. -/
theorem fmul_uno (F : Formato) (huno : (1 : FP F) = FP.fin false (2 ^ (F.prec - 1)) (1 - F.prec))
    (hprec : 1 ≤ F.prec) (c : FP F) (hc : c.Rappresentabile) : c * 1 = c := by
  rw [mul_def, huno]
  cases c with
  | nan => rfl
  | inf s =>
    have hk : (2 : Nat) ^ (F.prec - 1) ≠ 0 := by positivity
    simp only [fmul, if_neg hk, Bool.xor_false]
  | fin s m e =>
    obtain ⟨h1, h2, h3, h4⟩ := hc
    simp only [fmul, Bool.xor_false]
    by_cases hm : m = 0
    · subst hm
      have he : e = F.emin := by
        rcases h4 with h | h
        · exact h
        · have : 0 < 2 ^ (F.prec - 1) := by positivity
          omega
      subst he
      simp [arrotonda]
    · apply arrotonda_esatto F s _ _ m e (by positivity) hm h1 h2 h3 h4
      rw [Nat.mul_assoc m, ← pow_add, ← pow_due_eq]
      omega

/-- Adding a value of the format other than `-0.0` to `+0.0` returns the value unchanged;
adding `-0.0` returns `+0.0`. -/
theorem fadd_zero_sinistra (F : Formato) (c : FP F) (hc : c.Rappresentabile) :
    (c ≠ FP.fin true 0 F.emin → 0 + c = c) ∧
    (c = FP.fin true 0 F.emin → 0 + c = FP.fin false 0 F.emin) := by
  rw [add_def, zero_def]
  cases c with
  | nan => exact ⟨fun _ => rfl, fun h => by cases h⟩
  | inf s => exact ⟨fun _ => rfl, fun h => by cases h⟩
  | fin t k g =>
    obtain ⟨h1, h2, h3, h4⟩ := hc
    have hmin : min F.emin g = F.emin := min_eq_left h2
    by_cases hk : k = 0
    · subst hk
      have he : g = F.emin := by
        rcases h4 with h | h
        · exact h
        · have : 0 < 2 ^ (F.prec - 1) := by positivity
          omega
      subst he
      cases t with
      | false => exact ⟨fun _ => by simp [fadd, scala], fun h => by cases h⟩
      | true => exact ⟨fun h => absurd rfl h, fun _ => by simp [fadd, scala]⟩
    · have hne : (FP.fin t k g : FP F) ≠ FP.fin true 0 F.emin := by
        intro h
        cases h
        exact hk rfl
      refine ⟨fun _ => ?_, fun h => absurd h hne⟩
      have hpos : 0 < k * 2 ^ (g - F.emin).toNat := Nat.mul_pos (Nat.pos_of_ne_zero hk) (by positivity)
      have hz : scala false 0 F.emin F.emin + scala t k g F.emin
          = if t then -((k * 2 ^ (g - F.emin).toNat : Nat) : ℤ) else ((k * 2 ^ (g - F.emin).toNat : Nat) : ℤ) := by
        simp [scala]
      simp only [fadd, hmin]
      rw [hz]
      cases t with
      | false =>
        have h0 : ¬ (((k * 2 ^ (g - F.emin).toNat : Nat) : ℤ) = 0) := by omega
        have hlt : ¬ (((k * 2 ^ (g - F.emin).toNat : Nat) : ℤ) < 0) := by omega
        simp only [Bool.false_eq_true, if_false, if_neg h0, decide_eq_false hlt, Int.natAbs_ofNat]
        apply arrotonda_esatto F false _ _ k g (by positivity) hk h1 h2 h3 h4
        rw [Nat.mul_assoc k, ← pow_add, ← pow_due_eq]
        omega
      | true =>
        have h0 : ¬ (-((k * 2 ^ (g - F.emin).toNat : Nat) : ℤ) = 0) := by omega
        have hlt : (-((k * 2 ^ (g - F.emin).toNat : Nat) : ℤ) < 0) := by omega
        simp only [if_true, if_neg h0, decide_eq_true hlt, Int.natAbs_neg, Int.natAbs_ofNat]
        apply arrotonda_esatto F true _ _ k g (by positivity) hk h1 h2 h3 h4
        rw [Nat.mul_assoc k, ← pow_add, ← pow_due_eq]
        omega

theorem vicino_pari_sotto (q r D : Nat) (hr : 2 * r ≤ D) (hq : q % 2 = 0) :
    vicino_pari q r D = q := by
  unfold vicino_pari
  by_cases h : 2 * r < D
  · rw [if_pos h]
  · rw [if_neg h, if_pos (by omega), if_pos hq]

/-- Adding to `1.0` a positive value `m * 2^g` that is at most `2^(-prec)`, half the gap
between `1.0` and the next value of the format, returns `1.0`. -/
theorem fadd_uno_piccolo (F : Formato) (hp : 2 ≤ F.prec) (hmin : F.emin ≤ 1 - (F.prec : ℤ))
    (htop : 1 - (F.prec : ℤ) ≤ F.etop) (m : Nat) (g : ℤ) (hm : m ≠ 0)
    (hg : g ≤ -(F.prec : ℤ)) (hs : m * 2 ^ F.prec ≤ 2 ^ (-g).toNat) :
    fadd (FP.fin false (2 ^ (F.prec - 1)) (1 - F.prec) : FP F) (FP.fin false m g)
      = FP.fin false (2 ^ (F.prec - 1)) (1 - F.prec) := by
  obtain ⟨T, hT⟩ : ∃ T : Nat, g = -(T : ℤ) := ⟨(-g).toNat, by omega⟩
  subst hT
  obtain ⟨p, hpp⟩ : ∃ p : Nat, F.prec = p + 2 := ⟨F.prec - 2, by omega⟩
  rw [hpp] at hs hg hmin htop ⊢
  have hTp : p + 2 ≤ T := by omega
  obtain ⟨t, ht⟩ : ∃ t : Nat, T = t + (p + 1) := ⟨T - (p + 1), by omega⟩
  subst ht
  have e1 : (-(-((t + (p + 1) : Nat) : ℤ))).toNat = t + (p + 1) := by omega
  have e2 : ((1 : ℤ) - ((p + 2 : Nat) : ℤ) - (-((t + (p + 1) : Nat) : ℤ))).toNat = t := by omega
  have e3 : (-((t + (p + 1) : Nat) : ℤ)).toNat = 0 := by omega
  have e4 : (-((1 : ℤ) - ((p + 2 : Nat) : ℤ))).toNat = p + 1 := by omega
  have e5 : ((1 : ℤ) - ((p + 2 : Nat) : ℤ)).toNat = 0 := by omega
  have e6 : p + 2 - 1 = p + 1 := by omega
  rw [e1] at hs
  have hmin2 : min ((1 : ℤ) - ((p + 2 : Nat) : ℤ)) (-((t + (p + 1) : Nat) : ℤ))
      = -((t + (p + 1) : Nat) : ℤ) := by
    apply min_eq_right
    omega
  have hd : (2 : Nat) ^ (p + 1) * 2 ^ t = 2 ^ (t + (p + 1)) := by
    rw [← pow_add, Nat.add_comm]
  have hmpos : 0 < m := Nat.pos_of_ne_zero hm
  have hmlt : m * 2 ^ (p + 1) < 2 ^ (t + (p + 1)) := by
    have : m * 2 ^ (p + 2) = 2 * (m * 2 ^ (p + 1)) := by rw [pow_succ]; ring
    have hpos : 0 < m * 2 ^ (p + 1) := Nat.mul_pos hmpos (by positivity)
    omega
  have hmd : m < 2 ^ (t + (p + 1)) := by
    have : m ≤ m * 2 ^ (p + 1) := Nat.le_mul_of_pos_right m (by positivity)
    omega
  have hz : scala false (2 ^ (p + 1)) ((1 : ℤ) - ((p + 2 : Nat) : ℤ)) (-((t + (p + 1) : Nat) : ℤ))
      + scala false m (-((t + (p + 1) : Nat) : ℤ)) (-((t + (p + 1) : Nat) : ℤ))
      = ((2 ^ (t + (p + 1)) + m : Nat) : ℤ) := by
    simp only [scala, Bool.false_eq_true, if_false, e2, sub_self, Int.toNat_zero, pow_zero,
      Nat.mul_one, hd]
    push_cast
    rfl
  simp only [fadd, hmin2, e6]
  rw [hz]
  have h0 : ¬ (((2 ^ (t + (p + 1)) + m : Nat) : ℤ) = 0) := by omega
  have hlt : ¬ (((2 ^ (t + (p + 1)) + m : Nat) : ℤ) < 0) := by omega
  simp only [if_neg h0, decide_eq_false hlt, Int.natAbs_ofNat, e1, e3, pow_zero, Nat.mul_one]
  have hdq : ((2 ^ (t + (p + 1)) : Nat) : ℚ) = 2 ^ (t + (p + 1)) := by push_cast; rfl
  have hmq : (m : ℚ) < 2 ^ (t + (p + 1)) := by
    rw [← hdq]
    exact_mod_cast hmd
  have hmq0 : (0 : ℚ) ≤ m := Nat.cast_nonneg m
  apply arrotonda_di_esponente F false _ _ ((1 : ℤ) - ((p + 2 : Nat) : ℤ)) (2 ^ (p + 1))
  · omega
  · apply esponente_eq F _ _ _ (by omega) (by positivity)
    · exact hmin
    · rw [hpp, show (((p + 2 : Nat) : ℤ) + (1 - ((p + 2 : Nat) : ℤ))) = 1 by ring, zpow_one]
      push_cast
      linarith
    · right
      rw [hpp, show (((p + 2 : Nat) : ℤ) - 1 + (1 - ((p + 2 : Nat) : ℤ))) = 0 by ring, zpow_zero]
      push_cast
      linarith
  · rw [e4, e5, pow_zero, Nat.mul_one]
    have hN : (2 ^ (t + (p + 1)) + m) * 2 ^ (p + 1)
        = m * 2 ^ (p + 1) + 2 ^ (t + (p + 1)) * 2 ^ (p + 1) := by ring
    have hdpos : 0 < 2 ^ (t + (p + 1)) := by positivity
    rw [hN, Nat.add_mul_div_left _ _ hdpos, Nat.add_mul_mod_self_left,
      Nat.div_eq_of_lt hmlt, Nat.mod_eq_of_lt hmlt, Nat.zero_add]
    apply vicino_pari_sotto
    · have : m * 2 ^ (p + 2) = 2 * (m * 2 ^ (p + 1)) := by rw [pow_succ]; ring
      omega
    · rw [pow_succ]
      omega
  · rw [hpp]
    exact Nat.pow_lt_pow_right (by norm_num) (by omega)
  · rw [hpp] at *
    exact htop

/-- A value of the format that compares above `+0.0` and not above `2^(-prec)` is
`m * 2^g` with `0 < m` and `m * 2^prec ≤ 2^(-g)`. -/
theorem piccolo_di_flt (F : Formato) (hp : 1 ≤ F.prec) (hemin : F.emin ≤ 1 - 2 * (F.prec : ℤ))
    (e : FP F) (he : e.Rappresentabile) (hpos : flt 0 e = true)
    (hle : flt (FP.fin false (2 ^ (F.prec - 1)) (1 - 2 * (F.prec : ℤ)) : FP F) e = false) :
    ∃ (m : Nat) (g : ℤ), e = FP.fin false m g ∧ m ≠ 0 ∧ g ≤ -(F.prec : ℤ) ∧
      m * 2 ^ F.prec ≤ 2 ^ (-g).toNat := by
  rw [zero_def] at hpos
  cases e with
  | nan => simp [flt] at hpos
  | inf s =>
    cases s with
    | false => simp [flt] at hle
    | true => simp [flt] at hpos
  | fin s m g =>
    obtain ⟨h1, h2, h3, h4⟩ := he
    simp only [flt, decide_eq_true_eq, decide_eq_false_iff_not, not_lt] at hpos hle
    cases s with
    | true =>
      exfalso
      simp only [scala, Nat.zero_mul, Nat.cast_zero, Bool.false_eq_true, if_false, if_true] at hpos
      omega
    | false =>
      have hm : m ≠ 0 := by
        intro h0
        subst h0
        simp [scala] at hpos
      refine ⟨m, g, rfl, hm, ?_⟩
      simp only [scala, Bool.false_eq_true, if_false, Nat.cast_le] at hle
      obtain ⟨p, hpp⟩ : ∃ p : Nat, F.prec = p + 1 := ⟨F.prec - 1, by omega⟩
      rw [hpp] at hle hemin h4 h1 ⊢
      simp only [Nat.add_sub_cancel] at hle h4
      rcases le_or_lt g (1 - 2 * ((p + 1 : Nat) : ℤ)) with hg | hg
      · rw [min_eq_right hg] at hle
        simp only [sub_self, Int.toNat_zero, pow_zero, Nat.mul_one] at hle
        refine ⟨by omega, ?_⟩
        calc m * 2 ^ (p + 1) ≤ 2 ^ p * 2 ^ (1 - 2 * ((p + 1 : Nat) : ℤ) - g).toNat * 2 ^ (p + 1) :=
              Nat.mul_le_mul_right _ hle
          _ = 2 ^ (-g).toNat := by
              rw [← pow_add, ← pow_add]
              congr 1
              omega
      · exfalso
        rw [min_eq_left hg.le] at hle
        simp only [sub_self, Int.toNat_zero, pow_zero, Nat.mul_one] at hle
        rcases h4 with h4 | h4
        · omega
        · obtain ⟨u, hu⟩ : ∃ u : Nat, (g - (1 - 2 * ((p + 1 : Nat) : ℤ))).toNat = u + 1 :=
            ⟨(g - (1 - 2 * ((p + 1 : Nat) : ℤ))).toNat - 1, by omega⟩
          rw [hu, pow_succ] at hle
          have hpos2 : 0 < m * 2 ^ u := Nat.mul_pos (Nat.pos_of_ne_zero hm) (by positivity)
          have : m * (2 ^ u * 2) = 2 * (m * 2 ^ u) := by ring
          have h5 : m ≤ m * 2 ^ u := Nat.le_mul_of_pos_right m (by positivity)
          omega

theorem feq_self {F : Formato} (c : FP F) (hc : c ≠ FP.nan) : feq c c = true := by
  cases c with
  | nan => exact absurd rfl hc
  | inf s => cases s <;> rfl
  | fin s m e => simp [feq, flt]

theorem classico_singolo {α : Type} [Zero α] [One α] [Add α] [Mul α] (c x : α) :
    metodo_classico [c] x = some (0 + c * 1) := rfl

theorem horner_singolo {α : Type} [Add α] [Mul α] (c x : α) :
    metodo_horner [c] x = some c := rfl

end LemmiArrotonda

/-! ## Lemmas on the epsilon loop -/

section LemmiEpsilon

theorem ciclo_epsilon_mono {F : Formato} (fuel k : Nat) (epsilon valore : FP F) (cifre : Int)
    (r : FP F × Int) (h : ciclo_epsilon fuel epsilon valore cifre = some r) :
    ciclo_epsilon (fuel + k) epsilon valore cifre = some r := by
  induction fuel generalizing epsilon valore cifre with
  | zero => simp [ciclo_epsilon] at h
  | succ fuel ih =>
    rw [Nat.add_right_comm, ciclo_epsilon]
    rw [ciclo_epsilon] at h
    by_cases hc : flt 1 valore = true
    · simp only [hc, if_true] at h ⊢
      exact ih _ _ _ h
    · simp only [hc] at h ⊢
      exact h

theorem calcola_epsilon_mono (F : Formato) (fuel k : Nat) (r : FP F × Int)
    (h : calcola_epsilon F fuel = some r) : calcola_epsilon F (fuel + k) = some r := by
  unfold calcola_epsilon at h ⊢
  simp only at h ⊢
  cases hc : ciclo_epsilon fuel (costante F false 1 2) (fadd 1 (costante F false 1 2)) 0 with
  | none => simp [hc] at h
  | some p =>
    rw [ciclo_epsilon_mono fuel k _ _ _ p hc]
    rw [hc] at h
    exact h

theorem calcola_epsilon_float_24 :
    calcola_epsilon_float 24 = some (FP.fin false 8388608 (-46), 23) := by
  decide

theorem calcola_epsilon_double_53 :
    calcola_epsilon_double 53 = some (FP.fin false 4503599627370496 (-104), 52) := by
  decide

end LemmiEpsilon

/-! ## Claims on the evaluators in exact arithmetic -/

section Esatto

variable {α : Type}

/-- C1: for every non-empty coefficient sequence and every point, in exact arithmetic (any
semiring, in particular any commutative ring), `metodo_horner` and `metodo_classico` return
the same value. -/
theorem C1_horner_eq_classico [Semiring α] (a : List α) (x : α) (h : a ≠ []) :
    ∃ v, metodo_horner a x = some v ∧ metodo_classico a x = some v := by
  refine ⟨valore_esatto a x, metodo_horner_eq a x h, ?_⟩
  rw [metodo_classico_eq, valore_esatto]
  congr 1
  apply Finset.sum_congr rfl
  intro i _
  rw [potenza_eq_pow, one_mul]

/-- Witness of C1 on the coefficients `[-1, 3, -3, 1]` at the rational point `2`. -/
theorem C1_horner_eq_classico_witness :
    ([-1, 3, -3, 1] : List ℚ) ≠ [] ∧
      ∃ v, metodo_horner ([-1, 3, -3, 1] : List ℚ) 2 = some v ∧
        metodo_classico ([-1, 3, -3, 1] : List ℚ) 2 = some v :=
  ⟨by simp, C1_horner_eq_classico _ 2 (by simp)⟩

/-- C2: for every non-empty coefficient sequence and every point, in exact arithmetic,
`metodo_classico` returns the sum of `a[i] * x^i` over the indices of `a`, where the power
of term `i` is the result of `i` multiplications by `x` starting from `1`; on `[1]` it
returns `1` at every point, and on `[0, 1]` at `5` it returns `5`. -/
theorem C2_classico_sum [Semiring α] :
    (∀ (a : List α) (x : α), a ≠ [] →
      metodo_classico a x = some (∑ i ∈ Finset.range a.length, a.getD i 0 * potenza x i 1)
      ∧ (∀ i, potenza x i 1 = x ^ i)
      ∧ metodo_classico a x = some (valore_esatto a x))
    ∧ (∀ x : α, metodo_classico [1] x = some 1)
    ∧ metodo_classico ([0, 1] : List α) 5 = some 5 := by
  have hpow : ∀ (x : α) (i : Nat), potenza x i 1 = x ^ i := by
    intro x i
    rw [potenza_eq_pow, one_mul]
  have hval : ∀ (a : List α) (x : α), metodo_classico a x = some (valore_esatto a x) := by
    intro a x
    rw [metodo_classico_eq, valore_esatto]
    congr 1
    apply Finset.sum_congr rfl
    intro i _
    rw [hpow]
  refine ⟨fun a x _ => ⟨metodo_classico_eq a x, hpow x, hval a x⟩, ?_, ?_⟩
  · intro x
    rw [hval]
    simp [valore_esatto]
  · rw [hval]
    simp [valore_esatto, Finset.sum_range_succ]

/-- Witness of C2 on the coefficients `[0, 1]` at the rational point `5`. -/
theorem C2_classico_sum_witness :
    ([0, 1] : List ℚ) ≠ [] ∧ metodo_classico ([0, 1] : List ℚ) 5 = some (valore_esatto [0, 1] 5) :=
  ⟨by simp, ((C2_classico_sum (α := ℚ)).1 [0, 1] 5 (by simp)).2.2⟩

/-- C3 (as stated, refuted): on the empty coefficient sequence `metodo_classico` does not
fail; at the point `1.001f` it returns `+0.0`. -/
theorem C3_classico_vuoto_counterexample :
    metodo_classico ([] : List (FP binary32)) x0_main = some (FP.fin false 0 (-149)) := by
  decide

/-- C3 (amended): on the empty coefficient sequence `metodo_classico` returns the initial
sum `0` at every point, over every arithmetic, without reading the sequence. -/
theorem C3_classico_vuoto [Zero α] [One α] [Add α] [Mul α] (x : α) :
    metodo_classico ([] : List α) x = some 0 := by
  rfl

/-- C4 (as stated, refuted): on the empty coefficient sequence `metodo_horner` reports no
error; when the word stored before the buffer is `+0.0`, the unchecked read `a[-1]` gives
that word and the function returns `+0.0` at the point `1.001f`. -/
theorem C4_horner_vuoto_counterexample :
    metodo_horner_grezzo (fun _ => some (FP.fin false 0 (-149))) ([] : List (FP binary32))
      x0_main = some (FP.fin false 0 (-149)) := by
  decide

/-- C4 (amended): on the empty coefficient sequence `metodo_horner` makes no check: with
`n = -1` it reads `a[-1]` outside the vector, skips the loop, and its outcome at every
point is the outcome of that read, the word found before the buffer or the fault of the
read. -/
theorem C4_horner_vuoto [Add α] [Mul α] (fuori : Int → Option α) (x : α) :
    elemento_grezzo fuori ([] : List α) ((([] : List α).length : Int) - 1) = fuori (-1) ∧
      metodo_horner_grezzo fuori ([] : List α) x = fuori (-1) := by
  have h1 : elemento_grezzo fuori ([] : List α) ((([] : List α).length : Int) - 1)
      = fuori (-1) := rfl
  refine ⟨h1, ?_⟩
  unfold metodo_horner_grezzo
  simp only
  rw [h1]
  cases fuori (-1) with
  | none => rfl
  | some w => rfl

/-- C7: on a coefficient sequence of length `n + 1`, the counter of `metodo_horner` ends at
`n` and the counter of `metodo_classico` at `n(n+1)/2 + (n+1)`, the values being those of the
functions without counter; so Horner never multiplies more often than the classical
method. -/
theorem C7_moltiplicazioni [Zero α] [One α] [Add α] [Mul α] (a : List α) (x : α) (n : Nat)
    (h : a.length = n + 1) :
    (∃ v, metodo_horner a x = some v ∧ metodo_horner_conta a x = some (v, n)) ∧
    (∃ v, metodo_classico a x = some v ∧
      metodo_classico_conta a x = some (v, n * (n + 1) / 2 + (n + 1))) ∧
    n ≤ n * (n + 1) / 2 + (n + 1) := by
  have hcast : ((a.length : Int) - 1) = (n : Int) := by rw [h]; push_cast; ring
  refine ⟨?_, ?_, by omega⟩
  · obtain ⟨b, hb⟩ : ∃ b, elemento a (n : Int) = some b := by
      rw [elemento_natCast, List.getElem?_eq_getElem (by omega)]
      exact ⟨_, rfl⟩
    obtain ⟨v, hv, hc⟩ := horner_ciclo_conta_eq a x n (b, 0) (by omega)
    refine ⟨v, ?_, ?_⟩
    · unfold metodo_horner
      simp only [hcast, Int.toNat_ofNat, hb]
      exact hv
    · unfold metodo_horner_conta
      simp only [hcast, Int.toNat_ofNat, hb]
      rw [hc, Nat.zero_add]
  · obtain ⟨v, hv, hc⟩ := classico_ciclo_conta_eq a x (n + 1) 0 (0, 0) (by omega)
    have hn : ((n : Int) + 1).toNat = n + 1 := by omega
    refine ⟨v, ?_, ?_⟩
    · unfold metodo_classico
      simp only [hcast, hn]
      exact hv
    · unfold metodo_classico_conta
      simp only [hcast, hn]
      rw [Nat.cast_zero] at hc
      rw [hc, Nat.zero_add, somma_succ_range]

/-- Witness of C7 on the coefficients `[-1, 3, -3, 1]` at the integer point `2`. -/
theorem C7_moltiplicazioni_witness :
    ([-1, 3, -3, 1] : List ℤ).length = 3 + 1 ∧
    metodo_horner_conta ([-1, 3, -3, 1] : List ℤ) 2 = some (1, 3) ∧
    metodo_classico_conta ([-1, 3, -3, 1] : List ℤ) 2 = some (1, 10) := by
  obtain ⟨⟨v, hv, hc⟩, ⟨w, hw, hd⟩, _⟩ :=
    C7_moltiplicazioni ([-1, 3, -3, 1] : List ℤ) 2 3 rfl
  have h1 : v = 1 := by
    have : metodo_horner ([-1, 3, -3, 1] : List ℤ) 2 = some 1 := by decide
    rw [this] at hv
    exact (Option.some.inj hv).symm
  have h2 : w = 1 := by
    have : metodo_classico ([-1, 3, -3, 1] : List ℤ) 2 = some 1 := by decide
    rw [this] at hw
    exact (Option.some.inj hw).symm
  subst h1 h2
  exact ⟨rfl, hc, hd⟩

end Esatto

/-! ## Claims in floating-point arithmetic -/

section Arrotondato

/-- C6: on the coefficients `[-1, 3, -3, 1]` at `x0 = 1.001f` (the binary32 value
`8396997 * 2^-23`), in binary32 arithmetic rounded to nearest even after every operation,
`metodo_classico` returns `2^-22` and `metodo_horner` returns `2^-23`; the Horner value is
at least as close to the exact reference `10^-9` as the classical value, and neither equals
the reference. -/
theorem C6_scenario_canonico :
    x0_main = FP.fin false 8396997 (-23) ∧
    ∃ c h : FP binary32, metodo_classico p1 x0_main = some c ∧
      metodo_horner p1 x0_main = some h ∧
      ∃ qc qh : ℚ, toRat c = some qc ∧ toRat h = some qh ∧
        qc = 1 / 2 ^ 22 ∧ qh = 1 / 2 ^ 23 ∧
        |qh - 1 / 10 ^ 9| ≤ |qc - 1 / 10 ^ 9| ∧ qh ≠ 1 / 10 ^ 9 ∧ qc ≠ 1 / 10 ^ 9 := by
  refine ⟨by decide, FP.fin false 8388608 (-45), FP.fin false 8388608 (-46), by decide,
    by decide, 1 / 2 ^ 22, 1 / 2 ^ 23, ?_, ?_, rfl, rfl, ?_, ?_, ?_⟩
  · simp only [toRat]
    norm_num
  · simp only [toRat]
    norm_num
  · rw [abs_of_pos (by norm_num), abs_of_pos (by norm_num)]
    norm_num
  · norm_num
  · norm_num

/-- C8: the epsilon loop terminates, and on exit the counter `cifre` is `23` in
`calcola_epsilon_float` and `52` in `calcola_epsilon_double`: 24 (resp. 53) evaluations of
the loop condition are enough, and any larger allowance gives the same result. -/
theorem C8_cifre_mantissa :
    (∀ k : Nat, (calcola_epsilon_float (24 + k)).map Prod.snd = some 23) ∧
    (∀ k : Nat, (calcola_epsilon_double (53 + k)).map Prod.snd = some 52) ∧
    calcola_epsilon_float 23 = none ∧ calcola_epsilon_double 52 = none := by
  refine ⟨fun k => ?_, fun k => ?_, by decide, by decide⟩
  · have h := calcola_epsilon_mono binary32 24 k _ calcola_epsilon_float_24
    unfold calcola_epsilon_float
    rw [h]
    rfl
  · have h := calcola_epsilon_mono binary64 53 k _ calcola_epsilon_double_53
    unfold calcola_epsilon_double
    rw [h]
    rfl

/-- C9: the epsilon returned by `calcola_epsilon_float` is `2^-23` and the one returned by
`calcola_epsilon_double` is `2^-52`; in its own format each satisfies `1.0 + epsilon > 1.0`
and `1.0 + epsilon / 2 == 1.0`. -/
theorem C9_epsilon_restituito :
    (∃ eps : FP binary32, (∀ k : Nat, (calcola_epsilon_float (24 + k)).map Prod.fst = some eps) ∧
      toRat eps = some (1 / 2 ^ 23) ∧
      flt 1 (fadd 1 eps) = true ∧
      feq (fadd 1 (fdiv eps (costante binary32 false 2 1))) 1 = true) ∧
    (∃ eps : FP binary64, (∀ k : Nat, (calcola_epsilon_double (53 + k)).map Prod.fst = some eps) ∧
      toRat eps = some (1 / 2 ^ 52) ∧
      flt 1 (fadd 1 eps) = true ∧
      feq (fadd 1 (fdiv eps (costante binary64 false 2 1))) 1 = true) := by
  refine ⟨⟨FP.fin false 8388608 (-46), fun k => ?_, ?_, by decide, by decide⟩,
    ⟨FP.fin false 4503599627370496 (-104), fun k => ?_, ?_, by decide, by decide⟩⟩
  · have h := calcola_epsilon_mono binary32 24 k _ calcola_epsilon_float_24
    unfold calcola_epsilon_float
    rw [h]
    rfl
  · simp only [toRat]
    norm_num
  · have h := calcola_epsilon_mono binary64 53 k _ calcola_epsilon_double_53
    unfold calcola_epsilon_double
    rw [h]
    rfl
  · simp only [toRat]
    norm_num

/-- C5 (as stated, refuted): on the single coefficient `-0.0` the classical method returns
`+0.0`, which is not the coefficient itself. -/
theorem C5_grado_zero_counterexample :
    (FP.fin true 0 (-149) : FP binary32).Rappresentabile ∧
    metodo_classico [(FP.fin true 0 (-149) : FP binary32)] x0_main
      = some (FP.fin false 0 (-149)) ∧
    metodo_classico [(FP.fin true 0 (-149) : FP binary32)] x0_main
      ≠ some (FP.fin true 0 (-149)) := by
  refine ⟨⟨by decide, by decide, by decide, Or.inl rfl⟩, by decide, by decide⟩

/-- C5 (amended): for every binary32 value `c` and every point `x`, `metodo_horner [c] x`
returns exactly `c`; `metodo_classico [c] x` returns exactly `c` unless `c` is `-0.0`, for
which it returns `+0.0`; in every case other than a NaN the classical result compares
equal (`==`) to `c`. -/
theorem C5_grado_zero (c x : FP binary32) (hc : c.Rappresentabile) :
    metodo_horner [c] x = some c ∧
    (c ≠ FP.fin true 0 (-149) → metodo_classico [c] x = some c) ∧
    (c = FP.fin true 0 (-149) → metodo_classico [c] x = some (FP.fin false 0 (-149))) ∧
    ∃ r, metodo_classico [c] x = some r ∧ (c ≠ FP.nan → feq r c = true) := by
  have huno : (1 : FP binary32)
      = FP.fin false (2 ^ (binary32.prec - 1)) (1 - binary32.prec) := by decide
  have hmul : c * 1 = c := fmul_uno binary32 huno (by decide) c hc
  have hemin : binary32.emin = -149 := by decide
  obtain ⟨h1, h2⟩ := fadd_zero_sinistra binary32 c hc
  rw [hemin] at h1 h2
  have hcl : metodo_classico [c] x = some (0 + c) := by
    rw [classico_singolo, hmul]
  refine ⟨horner_singolo c x, fun h => by rw [hcl, h1 h], fun h => by rw [hcl, h2 h], ?_⟩
  by_cases hz : c = FP.fin true 0 (-149)
  · refine ⟨FP.fin false 0 (-149), by rw [hcl, h2 hz], fun _ => ?_⟩
    rw [hz]
    decide
  · exact ⟨c, by rw [hcl, h1 hz], fun hn => feq_self c hn⟩

/-- Witness of C5 on the coefficient `1.0f` at the point `1.001f`. -/
theorem C5_grado_zero_witness :
    (FP.fin false 8388608 (-23) : FP binary32).Rappresentabile ∧
    metodo_horner [(FP.fin false 8388608 (-23) : FP binary32)] x0_main
      = some (FP.fin false 8388608 (-23)) ∧
    metodo_classico [(FP.fin false 8388608 (-23) : FP binary32)] x0_main
      = some (FP.fin false 8388608 (-23)) :=
  have hr : (FP.fin false 8388608 (-23) : FP binary32).Rappresentabile :=
    ⟨by decide, by decide, by decide, Or.inr (by decide)⟩
  have h := C5_grado_zero (FP.fin false 8388608 (-23)) x0_main hr
  ⟨hr, h.1, h.2.1 (by decide)⟩

/-- C10 (as stated, refuted): `1.5 * 2^-24` is a positive binary32 value smaller than the
epsilon `2^-23` returned by `calcola_epsilon_float`, and `1.0 + 1.5 * 2^-24` is greater
than `1.0`. -/
theorem C10_epsilon_minimo_counterexample :
    (FP.fin false 12582912 (-47) : FP binary32).Rappresentabile ∧
    calcola_epsilon_float 24 = some (FP.fin false 8388608 (-46), 23) ∧
    flt 0 (FP.fin false 12582912 (-47) : FP binary32) = true ∧
    flt (FP.fin false 12582912 (-47) : FP binary32) (FP.fin false 8388608 (-46)) = true ∧
    flt 1 (fadd 1 (FP.fin false 12582912 (-47) : FP binary32)) = true ∧
    feq (fadd 1 (FP.fin false 12582912 (-47) : FP binary32)) 1 = false := by
  refine ⟨⟨by decide, by decide, by decide, Or.inr (by decide)⟩, by decide, by decide,
    by decide, by decide, by decide⟩

/-- C10 (amended): the epsilon returned by `calcola_epsilon_float` (`2^-23`) and by
`calcola_epsilon_double` (`2^-52`) satisfies `1.0 + epsilon > 1.0`, and for every positive
value `e` of the format that is not greater than `epsilon / 2`, `1.0 + e == 1.0`. -/
theorem C10_epsilon_soglia :
    ((∀ k : Nat, (calcola_epsilon_float (24 + k)).map Prod.fst
        = some (FP.fin false 8388608 (-46))) ∧
      flt 1 (fadd 1 (FP.fin false 8388608 (-46) : FP binary32)) = true ∧
      ∀ e : FP binary32, e.Rappresentabile → flt 0 e = true →
        flt (fdiv (FP.fin false 8388608 (-46)) (costante binary32 false 2 1)) e = false →
        fadd 1 e = 1 ∧ feq (fadd 1 e) 1 = true) ∧
    ((∀ k : Nat, (calcola_epsilon_double (53 + k)).map Prod.fst
        = some (FP.fin false 4503599627370496 (-104))) ∧
      flt 1 (fadd 1 (FP.fin false 4503599627370496 (-104) : FP binary64)) = true ∧
      ∀ e : FP binary64, e.Rappresentabile → flt 0 e = true →
        flt (fdiv (FP.fin false 4503599627370496 (-104)) (costante binary64 false 2 1)) e
          = false →
        fadd 1 e = 1 ∧ feq (fadd 1 e) 1 = true) := by
  refine ⟨⟨fun k => ?_, by decide, fun e he hpos hle => ?_⟩,
    ⟨fun k => ?_, by decide, fun e he hpos hle => ?_⟩⟩
  · have h := calcola_epsilon_mono binary32 24 k _ calcola_epsilon_float_24
    unfold calcola_epsilon_float
    rw [h]
    rfl
  · have hmet : fdiv (FP.fin false 8388608 (-46)) (costante binary32 false 2 1)
        = (FP.fin false (2 ^ (binary32.prec - 1)) (1 - 2 * (binary32.prec : ℤ))
          : FP binary32) := by decide
    rw [hmet] at hle
    obtain ⟨m, g, rfl, hm, hg, hs⟩ :=
      piccolo_di_flt binary32 (by decide) (by decide) e he hpos hle
    have huno : (1 : FP binary32)
        = FP.fin false (2 ^ (binary32.prec - 1)) (1 - binary32.prec) := by decide
    have hsum := fadd_uno_piccolo binary32 (by decide) (by decide) (by decide) m g hm hg hs
    rw [← huno] at hsum
    rw [hsum]
    exact ⟨rfl, by decide⟩
  · have h := calcola_epsilon_mono binary64 53 k _ calcola_epsilon_double_53
    unfold calcola_epsilon_double
    rw [h]
    rfl
  · have hmet : fdiv (FP.fin false 4503599627370496 (-104)) (costante binary64 false 2 1)
        = (FP.fin false (2 ^ (binary64.prec - 1)) (1 - 2 * (binary64.prec : ℤ))
          : FP binary64) := by decide
    rw [hmet] at hle
    obtain ⟨m, g, rfl, hm, hg, hs⟩ :=
      piccolo_di_flt binary64 (by decide) (by decide) e he hpos hle
    have huno : (1 : FP binary64)
        = FP.fin false (2 ^ (binary64.prec - 1)) (1 - binary64.prec) := by decide
    have hsum := fadd_uno_piccolo binary64 (by decide) (by decide) (by decide) m g hm hg hs
    rw [← huno] at hsum
    rw [hsum]
    exact ⟨rfl, by decide⟩

/-- Witness of C10 at `e = 2^-24`, half the epsilon of `float`. -/
theorem C10_epsilon_soglia_witness :
    (FP.fin false 8388608 (-47) : FP binary32).Rappresentabile ∧
    flt 0 (FP.fin false 8388608 (-47) : FP binary32) = true ∧
    flt (fdiv (FP.fin false 8388608 (-46)) (costante binary32 false 2 1))
      (FP.fin false 8388608 (-47) : FP binary32) = false ∧
    fadd 1 (FP.fin false 8388608 (-47) : FP binary32) = 1 :=
  have hr : (FP.fin false 8388608 (-47) : FP binary32).Rappresentabile :=
    ⟨by decide, by decide, by decide, Or.inr (by decide)⟩
  ⟨hr, by decide, by decide,
    (C10_epsilon_soglia.1.2.2 (FP.fin false 8388608 (-47)) hr (by decide) (by decide)).1⟩

end Arrotondato

end Lsa5
